import Mathlib

/-!
Shallow embedding of the lightcurve statistics module (lcanalyzer/models.py).

The source operates on pandas DataFrames holding floating-point magnitudes.
We model a cell value as a rational number, NaN, or a signed infinity:
columns loaded from data hold finite values or NaN, while infinities can
arise only as results of division by zero.  Pandas reductions mean/max/min
use their default skipna=True, i.e. they ignore NaN entries; elementwise
subtraction and division propagate NaN, and 0/0 yields NaN while x/0 with
x nonzero yields a signed infinity.  Series.fillna(0) replaces NaN (and
only NaN) by 0.
-/

/-- A pandas cell value: a finite float (modelled exactly as a rational),
NaN, or a signed infinity. -/
inductive PVal where
  | num : ℚ → PVal
  | nan : PVal
  | pinf : PVal
  | ninf : PVal
deriving DecidableEq, Repr

namespace PVal

/-- Whether the value is NaN. -/
def isNan : PVal → Bool
  | nan => true
  | _ => false

/-- Whether the value is positive infinity. -/
def isPinf : PVal → Bool
  | pinf => true
  | _ => false

/-- Whether the value is negative infinity. -/
def isNinf : PVal → Bool
  | ninf => true
  | _ => false

/-- The finite payload, when there is one. -/
def toRat? : PVal → Option ℚ
  | num q => some q
  | _ => none

/-- Series.fillna(0): NaN becomes 0, every other value is unchanged
(in particular infinities are NOT replaced). -/
def fillna0 : PVal → PVal
  | nan => num 0
  | v => v

end PVal

open PVal

/-- IEEE-style subtraction on cell values, as performed elementwise by
pandas when a scalar is subtracted from a frame or series. -/
def psub : PVal → PVal → PVal
  | PVal.nan, _ => PVal.nan
  | _, PVal.nan => PVal.nan
  | PVal.num a, PVal.num b => PVal.num (a - b)
  | PVal.pinf, PVal.pinf => PVal.nan
  | PVal.pinf, _ => PVal.pinf
  | PVal.ninf, PVal.ninf => PVal.nan
  | PVal.ninf, _ => PVal.ninf
  | PVal.num _, PVal.pinf => PVal.ninf
  | PVal.num _, PVal.ninf => PVal.pinf

/-- IEEE-style division on cell values, as performed elementwise by pandas
when a series is divided by a scalar: 0/0 is NaN, x/0 for x nonzero is a
signed infinity, finite/finite is exact division. -/
def pdiv : PVal → PVal → PVal
  | PVal.nan, _ => PVal.nan
  | _, PVal.nan => PVal.nan
  | PVal.num a, PVal.num b =>
      if b = 0 then
        (if a = 0 then PVal.nan else if 0 < a then PVal.pinf else PVal.ninf)
      else PVal.num (a / b)
  | PVal.num _, PVal.pinf => PVal.num 0
  | PVal.num _, PVal.ninf => PVal.num 0
  | PVal.pinf, PVal.num b => if b < 0 then PVal.ninf else PVal.pinf
  | PVal.ninf, PVal.num b => if b < 0 then PVal.pinf else PVal.ninf
  | PVal.pinf, _ => PVal.nan
  | PVal.ninf, _ => PVal.nan

/-- Binary minimum of two non-NaN values (the fold step of a NaN-skipping
reduction; the NaN cases are unreachable after filtering and propagate). -/
def minNN : PVal → PVal → PVal
  | PVal.nan, _ => PVal.nan
  | _, PVal.nan => PVal.nan
  | PVal.ninf, _ => PVal.ninf
  | _, PVal.ninf => PVal.ninf
  | PVal.pinf, y => y
  | x, PVal.pinf => x
  | PVal.num a, PVal.num b => PVal.num (min a b)

/-- Binary maximum of two non-NaN values. -/
def maxNN : PVal → PVal → PVal
  | PVal.nan, _ => PVal.nan
  | _, PVal.nan => PVal.nan
  | PVal.pinf, _ => PVal.pinf
  | _, PVal.pinf => PVal.pinf
  | PVal.ninf, y => y
  | x, PVal.ninf => x
  | PVal.num a, PVal.num b => PVal.num (max a b)

/-- pandas Series.min() with its default skipna=True: the minimum of the
non-NaN entries, NaN when there are none. -/
def colMin (col : List PVal) : PVal :=
  match col.filter (fun v => !v.isNan) with
  | [] => PVal.nan
  | v :: vs => vs.foldl minNN v

/-- pandas Series.max() with its default skipna=True. -/
def colMax (col : List PVal) : PVal :=
  match col.filter (fun v => !v.isNan) with
  | [] => PVal.nan
  | v :: vs => vs.foldl maxNN v

/-- pandas Series.mean() with its default skipna=True: the arithmetic mean
of the non-NaN entries (an infinity dominates as in IEEE summation), NaN
when there are none. -/
def colMean (col : List PVal) : PVal :=
  if col.any (fun v => v.isPinf) then
    (if col.any (fun v => v.isNinf) then PVal.nan else PVal.pinf)
  else if col.any (fun v => v.isNinf) then PVal.ninf
  else
    match col.filterMap PVal.toRat? with
    | [] => PVal.nan
    | q :: qs => PVal.num ((q :: qs).sum / (q :: qs).length)

/-- A pandas DataFrame restricted to what the module touches: an ordered
collection of named columns of cell values. -/
structure Table where
  cols : List (String × List PVal)
deriving DecidableEq, Repr

namespace Table

/-- Column selection data[c]; a missing column is a lookup failure
(KeyError). -/
def getCol (t : Table) (c : String) : Option (List PVal) :=
  t.cols.lookup c

/-- df - scalar: pandas subtracts the scalar from every entry of every
column. -/
def subScalar (t : Table) (v : PVal) : Table :=
  Table.mk (t.cols.map (fun p => (p.1, p.2.map (fun x => psub x v))))

end Table

/-- mean_mag: the mean of the named column; none models the exception on a
missing column. -/
def mean_mag (data : Table) (mag_col : String) : Option PVal :=
  (data.getCol mag_col).map colMean

/-- max_mag: the maximum of the named column. -/
def max_mag (data : Table) (mag_col : String) : Option PVal :=
  (data.getCol mag_col).map colMax

/-- min_mag: the minimum of the named column. -/
def min_mag (data : Table) (mag_col : String) : Option PVal :=
  (data.getCol mag_col).map colMin

/-- normalize_lc, translated line by line: take the column minimum, the
maximum of the scalar-shifted frame at the same column, divide the shifted
column by it, and fill NaN results with 0. -/
def normalize_lc (df : Table) (mag_col : String) : Option (List PVal) := do
  let mn ← min_mag df mag_col
  let mx ← max_mag (df.subScalar mn) mag_col
  let col ← df.getCol mag_col
  let shifted := col.map (fun v => psub v mn)
  let scaled := shifted.map (fun v => pdiv v mx)
  return scaled.map PVal.fillna0

/-- Insertion into a Python dict rendered as an association list: an
existing key keeps its position and receives the new value, a new key is
appended at the end (insertion order). -/
def dictInsert (k : String) (v : α) : List (String × α) → List (String × α)
  | [] => [(k, v)]
  | (k2, v2) :: rest =>
      if k2 = k then (k2, v) :: rest else (k2, v2) :: dictInsert k v rest

/-- The summary frame produced by calc_stats: a row index of statistic
names and one column of values per band. -/
structure StatsFrame where
  index : List String
  columns : List (String × List PVal)
deriving DecidableEq, Repr

instance : IsTotal (String × List PVal) (fun p q => p.1 ≤ q.1) :=
  ⟨fun a b => le_total a.1 b.1⟩

instance : IsTrans (String × List PVal) (fun p q => p.1 ≤ q.1) :=
  ⟨fun _ _ _ hab hbc => le_trans hab hbc⟩

/-- pd.DataFrame.from_records at the shape calc_stats builds: a dict
mapping band names to records that all have exactly the keys max, mean,
min in insertion order.  For dict input from_records takes the columns
from the SORTED dict keys (ensure_index(sorted(data))), so the columns
appear in lexicographic band-name order, not insertion order; the keys are
unique, so any (stable) sort gives the same list.  The rows are the record
keys max, mean, min when at least one record exists, and there is no index
to build when the dict is empty. -/
def fromRecords (records : List (String × List PVal)) : StatsFrame :=
  StatsFrame.mk (if records.isEmpty then [] else ["max", "mean", "min"])
    (List.insertionSort (fun p q => p.1 ≤ q.1) records)

/-- The loop body of calc_stats: walk the requested band names, look each
band up in the mapping (a failure aborts the whole call), compute the three
statistics of the magnitude column, and store them in the stats dict. -/
def calcStatsLoop (lc : List (String × Table)) (mag_col : String) :
    List String → List (String × List PVal) → Option (List (String × List PVal))
  | [], stats => some stats
  | b :: rest, stats => do
      let t ← lc.lookup b
      let mx ← max_mag t mag_col
      let mn ← mean_mag t mag_col
      let mi ← min_mag t mag_col
      calcStatsLoop lc mag_col rest (dictInsert b [mx, mn, mi] stats)

/-- calc_stats: max, mean and min of the magnitude column for every
requested band, assembled into a summary frame. -/
def calc_stats (lc : List (String × Table)) (bands : List String)
    (mag_col : String) : Option StatsFrame :=
  (calcStatsLoop lc mag_col bands []).map fromRecords

/-! Association-list lemmas. -/

theorem lookup_cons_self {α : Type} (k : String) (v : α) (l : List (String × α)) :
    ((k, v) :: l).lookup k = some v := by
  simp [List.lookup]

theorem lookup_cons_ne {α : Type} (k k2 : String) (v2 : α) (l : List (String × α))
    (h : k ≠ k2) : ((k2, v2) :: l).lookup k = l.lookup k := by
  have hb : (k == k2) = false := beq_eq_false_iff_ne.mpr h
  simp [List.lookup, hb]

theorem lookup_map_snd {α β : Type} (l : List (String × α)) (g : α → β) (k : String) :
    (l.map (fun p => (p.1, g p.2))).lookup k = (l.lookup k).map g := by
  induction l with
  | nil => rfl
  | cons p rest ih =>
    obtain ⟨k2, v2⟩ := p
    by_cases h : k = k2
    · subst h
      simp only [List.map_cons]
      rw [lookup_cons_self, lookup_cons_self]
      rfl
    · simp only [List.map_cons]
      rw [lookup_cons_ne _ _ _ _ h, lookup_cons_ne _ _ _ _ h, ih]

theorem getCol_subScalar (t : Table) (v : PVal) (c : String) :
    (t.subScalar v).getCol c = (t.getCol c).map (fun col => col.map (fun x => psub x v)) := by
  unfold Table.subScalar Table.getCol
  exact lookup_map_snd t.cols (fun col => col.map (fun x => psub x v)) c

theorem lookup_append_of_none {α : Type} (l1 l2 : List (String × α)) (k : String)
    (h : l1.lookup k = none) : (l1 ++ l2).lookup k = l2.lookup k := by
  induction l1 with
  | nil => rfl
  | cons p rest ih =>
    obtain ⟨k2, v2⟩ := p
    by_cases hk : k = k2
    · subst hk
      rw [lookup_cons_self] at h
      cases h
    · rw [lookup_cons_ne _ _ _ _ hk] at h
      simp only [List.cons_append]
      rw [lookup_cons_ne _ _ _ _ hk]
      exact ih h

theorem dictInsert_append {α : Type} (k : String) (v : α) (l : List (String × α))
    (h : l.lookup k = none) : dictInsert k v l = l ++ [(k, v)] := by
  induction l with
  | nil => rfl
  | cons p rest ih =>
    obtain ⟨k2, v2⟩ := p
    by_cases hk : k = k2
    · subst hk
      rw [lookup_cons_self] at h
      cases h
    · rw [lookup_cons_ne _ _ _ _ hk] at h
      simp only [dictInsert, Ne.symm hk, if_false, List.cons_append]
      rw [ih h]

theorem mem_of_lookup_eq_some {α : Type} {l : List (String × α)} {k : String} {v : α}
    (h : l.lookup k = some v) : (k, v) ∈ l := by
  induction l with
  | nil => cases h
  | cons p rest ih =>
    obtain ⟨k2, v2⟩ := p
    by_cases hk : k = k2
    · subst hk
      rw [lookup_cons_self] at h
      injection h with h2
      subst h2
      exact List.mem_cons_self _ _
    · rw [lookup_cons_ne _ _ _ _ hk] at h
      exact List.mem_cons_of_mem _ (ih h)

theorem lookup_eq_some_of_mem_nodup {α : Type} :
    ∀ (l : List (String × α)), (l.map Prod.fst).Nodup →
      ∀ (k : String) (v : α), (k, v) ∈ l → l.lookup k = some v := by
  intro l
  induction l with
  | nil => intro _ k v hmem; cases hmem
  | cons p rest ih =>
    intro hnd k v hmem
    obtain ⟨k2, v2⟩ := p
    rcases List.mem_cons.mp hmem with h | h
    · cases h
      exact lookup_cons_self k v rest
    · by_cases hk : k = k2
      · exfalso
        subst hk
        have hkey : k ∈ rest.map Prod.fst := List.mem_map_of_mem Prod.fst h
        exact (List.nodup_cons.mp hnd).1 hkey
      · rw [lookup_cons_ne _ _ _ _ hk]
        exact ih (List.nodup_cons.mp hnd).2 k v h

/-! Fold lemmas for rational minima and maxima. -/

theorem foldl_min_eq_or_mem (qs : List ℚ) : ∀ a : ℚ, qs.foldl min a = a ∨ qs.foldl min a ∈ qs := by
  induction qs with
  | nil => intro a; left; rfl
  | cons q qs ih =>
    intro a
    simp only [List.foldl_cons]
    rcases ih (min a q) with h | h
    · rw [h]
      rcases min_choice a q with h2 | h2 <;> rw [h2]
      · left; rfl
      · right; exact List.mem_cons_self q qs
    · right; exact List.mem_cons_of_mem q h

theorem foldl_min_le_init (qs : List ℚ) : ∀ a : ℚ, qs.foldl min a ≤ a := by
  induction qs with
  | nil => intro a; exact le_refl a
  | cons q qs ih =>
    intro a
    simp only [List.foldl_cons]
    exact le_trans (ih (min a q)) (min_le_left a q)

theorem foldl_min_le_mem (qs : List ℚ) : ∀ (a x : ℚ), x ∈ qs → qs.foldl min a ≤ x := by
  induction qs with
  | nil => intro a x hx; cases hx
  | cons q qs ih =>
    intro a x hx
    simp only [List.foldl_cons]
    rcases List.mem_cons.mp hx with h | h
    · subst h
      exact le_trans (foldl_min_le_init qs (min a x)) (min_le_right a x)
    · exact ih (min a q) x h

theorem foldl_max_eq_or_mem (qs : List ℚ) : ∀ a : ℚ, qs.foldl max a = a ∨ qs.foldl max a ∈ qs := by
  induction qs with
  | nil => intro a; left; rfl
  | cons q qs ih =>
    intro a
    simp only [List.foldl_cons]
    rcases ih (max a q) with h | h
    · rw [h]
      rcases max_choice a q with h2 | h2 <;> rw [h2]
      · left; rfl
      · right; exact List.mem_cons_self q qs
    · right; exact List.mem_cons_of_mem q h

theorem init_le_foldl_max (qs : List ℚ) : ∀ a : ℚ, a ≤ qs.foldl max a := by
  induction qs with
  | nil => intro a; exact le_refl a
  | cons q qs ih =>
    intro a
    simp only [List.foldl_cons]
    exact le_trans (le_max_left a q) (ih (max a q))

theorem mem_le_foldl_max (qs : List ℚ) : ∀ (a x : ℚ), x ∈ qs → x ≤ qs.foldl max a := by
  induction qs with
  | nil => intro a x hx; cases hx
  | cons q qs ih =>
    intro a x hx
    simp only [List.foldl_cons]
    rcases List.mem_cons.mp hx with h | h
    · subst h
      exact le_trans (le_max_right a x) (init_le_foldl_max qs (max a x))
    · exact ih (max a q) x h

theorem foldl_min_map (f : ℚ → ℚ) (hf : ∀ a b, f (min a b) = min (f a) (f b))
    (qs : List ℚ) : ∀ a : ℚ, (qs.map f).foldl min (f a) = f (qs.foldl min a) := by
  induction qs with
  | nil => intro a; rfl
  | cons q qs ih =>
    intro a
    simp only [List.map_cons, List.foldl_cons, ← hf a q]
    exact ih (min a q)

theorem foldl_max_map (f : ℚ → ℚ) (hf : ∀ a b, f (max a b) = max (f a) (f b))
    (qs : List ℚ) : ∀ a : ℚ, (qs.map f).foldl max (f a) = f (qs.foldl max a) := by
  induction qs with
  | nil => intro a; rfl
  | cons q qs ih =>
    intro a
    simp only [List.map_cons, List.foldl_cons, ← hf a q]
    exact ih (max a q)

/-! Evaluation of the column reducers on concrete column shapes. -/

@[simp] theorem isNan_num (q : ℚ) : (PVal.num q).isNan = false := rfl

@[simp] theorem isNan_nan : PVal.nan.isNan = true := rfl

@[simp] theorem isNan_pinf : PVal.pinf.isNan = false := rfl

@[simp] theorem isNan_ninf : PVal.ninf.isNan = false := rfl

@[simp] theorem isPinf_num (q : ℚ) : (PVal.num q).isPinf = false := rfl

@[simp] theorem isPinf_nan : PVal.nan.isPinf = false := rfl

@[simp] theorem isPinf_pinf : PVal.pinf.isPinf = true := rfl

@[simp] theorem isPinf_ninf : PVal.ninf.isPinf = false := rfl

@[simp] theorem isNinf_num (q : ℚ) : (PVal.num q).isNinf = false := rfl

@[simp] theorem isNinf_nan : PVal.nan.isNinf = false := rfl

@[simp] theorem isNinf_pinf : PVal.pinf.isNinf = false := rfl

@[simp] theorem isNinf_ninf : PVal.ninf.isNinf = true := rfl

@[simp] theorem toRat?_num (q : ℚ) : (PVal.num q).toRat? = some q := rfl

@[simp] theorem toRat?_nan : PVal.nan.toRat? = none := rfl

@[simp] theorem toRat?_pinf : PVal.pinf.toRat? = none := rfl

@[simp] theorem toRat?_ninf : PVal.ninf.toRat? = none := rfl

theorem foldl_minNN_map_num (qs : List ℚ) :
    ∀ a : ℚ, (qs.map PVal.num).foldl minNN (PVal.num a) = PVal.num (qs.foldl min a) := by
  induction qs with
  | nil => intro a; rfl
  | cons q qs ih =>
    intro a
    simp only [List.map_cons, List.foldl_cons]
    have h1 : minNN (PVal.num a) (PVal.num q) = PVal.num (min a q) := rfl
    rw [h1]
    exact ih (min a q)

theorem foldl_maxNN_map_num (qs : List ℚ) :
    ∀ a : ℚ, (qs.map PVal.num).foldl maxNN (PVal.num a) = PVal.num (qs.foldl max a) := by
  induction qs with
  | nil => intro a; rfl
  | cons q qs ih =>
    intro a
    simp only [List.map_cons, List.foldl_cons]
    have h1 : maxNN (PVal.num a) (PVal.num q) = PVal.num (max a q) := rfl
    rw [h1]
    exact ih (max a q)

theorem filter_not_nan_map_num (qs : List ℚ) :
    (qs.map PVal.num).filter (fun v => !v.isNan) = qs.map PVal.num := by
  apply List.filter_eq_self.mpr
  intro v hv
  rcases List.mem_map.mp hv with ⟨q, _, rfl⟩
  rfl

theorem colMin_map_num (q : ℚ) (qs : List ℚ) :
    colMin ((q :: qs).map PVal.num) = PVal.num (qs.foldl min q) := by
  unfold colMin
  rw [filter_not_nan_map_num]
  simp only [List.map_cons]
  exact foldl_minNN_map_num qs q

theorem colMax_map_num (q : ℚ) (qs : List ℚ) :
    colMax ((q :: qs).map PVal.num) = PVal.num (qs.foldl max q) := by
  unfold colMax
  rw [filter_not_nan_map_num]
  simp only [List.map_cons]
  exact foldl_maxNN_map_num qs q

theorem filterMap_toRat_map_num (qs : List ℚ) :
    (qs.map PVal.num).filterMap PVal.toRat? = qs := by
  induction qs with
  | nil => rfl
  | cons q qs ih => simp [List.filterMap_cons, toRat?_num, ih]

theorem colMean_map_num (q : ℚ) (qs : List ℚ) :
    colMean ((q :: qs).map PVal.num) = PVal.num ((q :: qs).sum / ((q :: qs).length : ℚ)) := by
  unfold colMean
  have h1 : ((q :: qs).map PVal.num).any (fun v => v.isPinf) = false := by
    simp [List.any_map, Function.comp, isPinf_num]
  have h2 : ((q :: qs).map PVal.num).any (fun v => v.isNinf) = false := by
    simp [List.any_map, Function.comp, isNinf_num]
  rw [h1, h2, filterMap_toRat_map_num]
  rfl

theorem colMin_filter_nan (col : List PVal) :
    colMin (col.filter (fun v => !v.isNan)) = colMin col := by
  unfold colMin
  rw [List.filter_filter]
  simp only [Bool.and_self]

theorem colMax_filter_nan (col : List PVal) :
    colMax (col.filter (fun v => !v.isNan)) = colMax col := by
  unfold colMax
  rw [List.filter_filter]
  simp only [Bool.and_self]

theorem any_isPinf_filter_nan (col : List PVal) :
    (col.filter (fun v => !v.isNan)).any (fun v => v.isPinf) = col.any (fun v => v.isPinf) := by
  induction col with
  | nil => rfl
  | cons v vs ih => cases v <;> simp [List.filter_cons, List.any_cons, ih]

theorem any_isNinf_filter_nan (col : List PVal) :
    (col.filter (fun v => !v.isNan)).any (fun v => v.isNinf) = col.any (fun v => v.isNinf) := by
  induction col with
  | nil => rfl
  | cons v vs ih => cases v <;> simp [List.filter_cons, List.any_cons, ih]

theorem filterMap_toRat_filter_nan (col : List PVal) :
    (col.filter (fun v => !v.isNan)).filterMap PVal.toRat? = col.filterMap PVal.toRat? := by
  induction col with
  | nil => rfl
  | cons v vs ih =>
    cases v <;> simp [List.filter_cons, List.filterMap_cons, ih]

theorem colMean_filter_nan (col : List PVal) :
    colMean (col.filter (fun v => !v.isNan)) = colMean col := by
  unfold colMean
  rw [any_isPinf_filter_nan, any_isNinf_filter_nan, filterMap_toRat_filter_nan]

theorem colMin_of_filter (col : List PVal) (q : ℚ) (qs : List ℚ)
    (h : col.filter (fun v => !v.isNan) = (q :: qs).map PVal.num) :
    colMin col = PVal.num (qs.foldl min q) := by
  rw [← colMin_filter_nan, h, colMin_map_num]

theorem colMax_of_filter (col : List PVal) (q : ℚ) (qs : List ℚ)
    (h : col.filter (fun v => !v.isNan) = (q :: qs).map PVal.num) :
    colMax col = PVal.num (qs.foldl max q) := by
  rw [← colMax_filter_nan, h, colMax_map_num]

theorem colMean_of_filter (col : List PVal) (q : ℚ) (qs : List ℚ)
    (h : col.filter (fun v => !v.isNan) = (q :: qs).map PVal.num) :
    colMean col = PVal.num ((q :: qs).sum / ((q :: qs).length : ℚ)) := by
  rw [← colMean_filter_nan, h, colMean_map_num]

/-! Bounds on the arithmetic mean of a list of rationals. -/

theorem length_mul_le_sum (qs : List ℚ) (b : ℚ) (h : ∀ x ∈ qs, b ≤ x) :
    (qs.length : ℚ) * b ≤ qs.sum := by
  induction qs with
  | nil => simp
  | cons q qs ih =>
    have hq : b ≤ q := h q (List.mem_cons_self q qs)
    have ih2 := ih (fun x hx => h x (List.mem_cons_of_mem q hx))
    simp only [List.sum_cons, List.length_cons]
    push_cast
    have hring : ((qs.length : ℚ) + 1) * b = (qs.length : ℚ) * b + b := by ring
    rw [hring]
    linarith

theorem sum_le_length_mul (qs : List ℚ) (b : ℚ) (h : ∀ x ∈ qs, x ≤ b) :
    qs.sum ≤ (qs.length : ℚ) * b := by
  induction qs with
  | nil => simp
  | cons q qs ih =>
    have hq : q ≤ b := h q (List.mem_cons_self q qs)
    have ih2 := ih (fun x hx => h x (List.mem_cons_of_mem q hx))
    simp only [List.sum_cons, List.length_cons]
    push_cast
    have hring : ((qs.length : ℚ) + 1) * b = (qs.length : ℚ) * b + b := by ring
    rw [hring]
    linarith

/-! Evaluation of normalize_lc. -/

@[simp] theorem psub_num_num (a b : ℚ) : psub (PVal.num a) (PVal.num b) = PVal.num (a - b) := rfl

@[simp] theorem psub_nan_num (b : ℚ) : psub PVal.nan (PVal.num b) = PVal.nan := rfl

@[simp] theorem pdiv_nan_num (b : ℚ) : pdiv PVal.nan (PVal.num b) = PVal.nan := rfl

@[simp] theorem fillna0_num (q : ℚ) : PVal.fillna0 (PVal.num q) = PVal.num q := rfl

@[simp] theorem fillna0_nan : PVal.fillna0 PVal.nan = PVal.num 0 := rfl

theorem pdiv_num_num_of_ne (a b : ℚ) (hb : b ≠ 0) :
    pdiv (PVal.num a) (PVal.num b) = PVal.num (a / b) := by
  show (if b = 0 then _ else PVal.num (a / b)) = PVal.num (a / b)
  rw [if_neg hb]

theorem pdiv_num_zero_zero : pdiv (PVal.num 0) (PVal.num 0) = PVal.nan := rfl

theorem isNan_psub_num (v : PVal) (b : ℚ) : (psub v (PVal.num b)).isNan = v.isNan := by
  cases v <;> rfl

theorem normalize_lc_eval (t : Table) (c : String) (col : List PVal)
    (h : t.getCol c = some col) :
    normalize_lc t c = some (((col.map (fun v => psub v (colMin col))).map
      (fun v => pdiv v (colMax (col.map (fun x => psub x (colMin col)))))).map PVal.fillna0) := by
  simp [normalize_lc, min_mag, max_mag, h, getCol_subScalar, List.map_map, Function.comp]

theorem filter_nan_map_psub (col : List PVal) (b : ℚ) :
    (col.map (fun v => psub v (PVal.num b))).filter (fun v => !v.isNan) =
      (col.filter (fun v => !v.isNan)).map (fun v => psub v (PVal.num b)) := by
  rw [List.filter_map]
  congr 1
  apply List.filter_congr
  intro v hv
  simp [Function.comp, isNan_psub_num]

theorem normalize_lc_pure (t : Table) (c : String) (q0 : ℚ) (qs : List ℚ)
    (h : t.getCol c = some ((q0 :: qs).map PVal.num))
    (hne : qs.foldl max q0 - qs.foldl min q0 ≠ 0) :
    normalize_lc t c = some ((q0 :: qs).map (fun q =>
      PVal.num ((q - qs.foldl min q0) / (qs.foldl max q0 - qs.foldl min q0)))) := by
  have heval := normalize_lc_eval t c _ h
  rw [colMin_map_num] at heval
  have hshift : ((q0 :: qs).map PVal.num).map (fun v => psub v (PVal.num (qs.foldl min q0)))
      = ((q0 :: qs).map (fun q => q - qs.foldl min q0)).map PVal.num := by
    simp only [List.map_map]
    rfl
  have hcolmax : colMax (((q0 :: qs).map PVal.num).map (fun x => psub x (PVal.num (qs.foldl min q0))))
      = PVal.num (qs.foldl max q0 - qs.foldl min q0) := by
    rw [hshift]
    simp only [List.map_cons]
    have h1 := colMax_map_num (q0 - qs.foldl min q0) (qs.map (fun q => q - qs.foldl min q0))
    simp only [List.map_cons] at h1
    rw [h1]
    congr 1
    exact foldl_max_map (fun q => q - qs.foldl min q0)
      (fun a b => (max_sub_sub_right a b (qs.foldl min q0)).symm) qs q0
  rw [heval, hcolmax]
  congr 1
  simp only [List.map_map]
  apply List.map_congr_left
  intro q hq
  simp only [Function.comp_apply]
  rw [psub_num_num, pdiv_num_num_of_ne _ _ hne]
  rfl

theorem normalize_lc_mixed (t : Table) (c : String) (col : List PVal) (q0 : ℚ) (qs : List ℚ)
    (hcol : t.getCol c = some col)
    (hfil : col.filter (fun v => !v.isNan) = (q0 :: qs).map PVal.num)
    (hne : qs.foldl max q0 - qs.foldl min q0 ≠ 0) :
    normalize_lc t c = some (col.map (fun v =>
      match v with
      | PVal.num q => PVal.num ((q - qs.foldl min q0) / (qs.foldl max q0 - qs.foldl min q0))
      | _ => PVal.num 0)) := by
  have hmin : colMin col = PVal.num (qs.foldl min q0) := colMin_of_filter col q0 qs hfil
  have heval := normalize_lc_eval t c _ hcol
  rw [hmin] at heval
  have hfil2 : (col.map (fun x => psub x (PVal.num (qs.foldl min q0)))).filter (fun v => !v.isNan)
      = ((q0 - qs.foldl min q0) :: qs.map (fun q => q - qs.foldl min q0)).map PVal.num := by
    rw [filter_nan_map_psub, hfil]
    simp only [List.map_map, List.map_cons]
    rfl
  have hcolmax : colMax (col.map (fun x => psub x (PVal.num (qs.foldl min q0))))
      = PVal.num (qs.foldl max q0 - qs.foldl min q0) := by
    rw [colMax_of_filter _ _ _ hfil2]
    congr 1
    exact foldl_max_map (fun q => q - qs.foldl min q0)
      (fun a b => (max_sub_sub_right a b (qs.foldl min q0)).symm) qs q0
  rw [heval, hcolmax]
  congr 1
  simp only [List.map_map]
  apply List.map_congr_left
  intro v hv
  simp only [Function.comp_apply]
  cases v with
  | num q =>
    rw [psub_num_num, pdiv_num_num_of_ne _ _ hne]
    rfl
  | nan => rfl
  | pinf =>
    exfalso
    have hmem : PVal.pinf ∈ col.filter (fun v => !v.isNan) := List.mem_filter.mpr ⟨hv, rfl⟩
    rw [hfil] at hmem
    rcases List.mem_map.mp hmem with ⟨q, _, hq⟩
    exact PVal.noConfusion hq
  | ninf =>
    exfalso
    have hmem : PVal.ninf ∈ col.filter (fun v => !v.isNan) := List.mem_filter.mpr ⟨hv, rfl⟩
    rw [hfil] at hmem
    rcases List.mem_map.mp hmem with ⟨q, _, hq⟩
    exact PVal.noConfusion hq

/-! Behaviour of the calc_stats loop. -/

theorem calcStatsLoop_missing (lc : List (String × Table)) (c : String) :
    ∀ (bands : List String) (acc : List (String × List PVal)) (b : String),
      b ∈ bands → lc.lookup b = none → calcStatsLoop lc c bands acc = none := by
  intro bands
  induction bands with
  | nil => intro acc b hb _; cases hb
  | cons b2 rest ih =>
    intro acc b hb hnone
    cases hl : lc.lookup b2 with
    | none => simp [calcStatsLoop, hl]
    | some t =>
      rcases List.mem_cons.mp hb with h | h
      · subst h
        rw [hl] at hnone
        cases hnone
      · cases hg : t.getCol c with
        | none => simp [calcStatsLoop, hl, max_mag, hg]
        | some col =>
          simp [calcStatsLoop, hl, max_mag, mean_mag, min_mag, hg]
          exact ih _ b h hnone

theorem calcStatsLoop_spec (lc : List (String × Table)) (c : String) :
    ∀ (bands : List String) (acc : List (String × List PVal)),
      bands.Nodup →
      (∀ b ∈ bands, acc.lookup b = none) →
      (∀ b ∈ bands, ((lc.lookup b).bind (fun t => t.getCol c)).isSome = true) →
      ∃ recs, calcStatsLoop lc c bands acc = some (acc ++ recs) ∧
        recs.map Prod.fst = bands ∧
        (∀ b t, b ∈ bands → lc.lookup b = some t →
          ∃ mx mn mi, max_mag t c = some mx ∧ mean_mag t c = some mn ∧
            min_mag t c = some mi ∧ recs.lookup b = some [mx, mn, mi]) := by
  intro bands
  induction bands with
  | nil =>
    intro acc _ _ _
    refine ⟨[], by simp [calcStatsLoop], rfl, ?_⟩
    intro b t hb
    cases hb
  | cons b rest ih =>
    intro acc hnd hacc hpres
    have hb := hpres b (List.mem_cons_self b rest)
    cases hl : lc.lookup b with
    | none => rw [hl] at hb; simp at hb
    | some t =>
      rw [hl] at hb
      cases hg : t.getCol c with
      | none => simp [hg] at hb
      | some col =>
        have hmx : max_mag t c = some (colMax col) := by simp [max_mag, hg]
        have hmn : mean_mag t c = some (colMean col) := by simp [mean_mag, hg]
        have hmi : min_mag t c = some (colMin col) := by simp [min_mag, hg]
        have hbnotr : b ∉ rest := (List.nodup_cons.mp hnd).1
        have hndr : rest.Nodup := (List.nodup_cons.mp hnd).2
        have haccb : acc.lookup b = none := hacc b (List.mem_cons_self b rest)
        have hins : dictInsert b [colMax col, colMean col, colMin col] acc
            = acc ++ [(b, [colMax col, colMean col, colMin col])] :=
          dictInsert_append _ _ _ haccb
        have hacc2 : ∀ b2 ∈ rest,
            (acc ++ [(b, [colMax col, colMean col, colMin col])]).lookup b2 = none := by
          intro b2 hb2
          have hne2 : b2 ≠ b := fun he => hbnotr (he ▸ hb2)
          rw [lookup_append_of_none _ _ _ (hacc b2 (List.mem_cons_of_mem b hb2))]
          rw [lookup_cons_ne _ _ _ _ hne2]
          rfl
        have hpres2 : ∀ b2 ∈ rest, ((lc.lookup b2).bind (fun t => t.getCol c)).isSome = true :=
          fun b2 hb2 => hpres b2 (List.mem_cons_of_mem b hb2)
        obtain ⟨recs2, heq2, hmap2, hlook2⟩ :=
          ih (acc ++ [(b, [colMax col, colMean col, colMin col])]) hndr hacc2 hpres2
        refine ⟨(b, [colMax col, colMean col, colMin col]) :: recs2, ?_, ?_, ?_⟩
        · have hstep : calcStatsLoop lc c (b :: rest) acc
              = calcStatsLoop lc c rest (dictInsert b [colMax col, colMean col, colMin col] acc) := by
            simp [calcStatsLoop, hl, hmx, hmn, hmi]
          rw [hstep, hins, heq2]
          simp
        · simp [hmap2]
        · intro b2 t2 hb2 hl2
          rcases List.mem_cons.mp hb2 with h | h
          · subst h
            rw [hl] at hl2
            injection hl2 with ht
            subst ht
            exact ⟨colMax col, colMean col, colMin col, hmx, hmn, hmi, by rw [lookup_cons_self]⟩
          · obtain ⟨mx, mn, mi, h1, h2, h3, h4⟩ := hlook2 b2 t2 h hl2
            have hne2 : b2 ≠ b := fun he => hbnotr (he ▸ h)
            refine ⟨mx, mn, mi, h1, h2, h3, ?_⟩
            rw [lookup_cons_ne _ _ _ _ hne2]
            exact h4

/-! Combined bounds over a nonempty list. -/

theorem foldl_min_le_all (q0 : ℚ) (qs : List ℚ) : ∀ x ∈ q0 :: qs, qs.foldl min q0 ≤ x := by
  intro x hx
  rcases List.mem_cons.mp hx with h | h
  · subst h
    exact foldl_min_le_init qs x
  · exact foldl_min_le_mem qs q0 x h

theorem le_foldl_max_all (q0 : ℚ) (qs : List ℚ) : ∀ x ∈ q0 :: qs, x ≤ qs.foldl max q0 := by
  intro x hx
  rcases List.mem_cons.mp hx with h | h
  · subst h
    exact init_le_foldl_max qs x
  · exact mem_le_foldl_max qs q0 x h

theorem foldl_min_mem_cons (q0 : ℚ) (qs : List ℚ) : qs.foldl min q0 ∈ q0 :: qs := by
  rcases foldl_min_eq_or_mem qs q0 with h | h
  · rw [h]
    exact List.mem_cons_self q0 qs
  · exact List.mem_cons_of_mem q0 h

theorem foldl_max_mem_cons (q0 : ℚ) (qs : List ℚ) : qs.foldl max q0 ∈ q0 :: qs := by
  rcases foldl_max_eq_or_mem qs q0 with h | h
  · rw [h]
    exact List.mem_cons_self q0 qs
  · exact List.mem_cons_of_mem q0 h

theorem foldl_min_lt_foldl_max (q0 : ℚ) (qs : List ℚ)
    (hnc : ¬ ∀ x ∈ q0 :: qs, ∀ y ∈ q0 :: qs, x = y) :
    qs.foldl min q0 < qs.foldl max q0 := by
  by_contra hle
  push_neg at hle
  apply hnc
  intro x hx y hy
  have h1 := foldl_min_le_all q0 qs x hx
  have h2 := le_foldl_max_all q0 qs x hx
  have h3 := foldl_min_le_all q0 qs y hy
  have h4 := le_foldl_max_all q0 qs y hy
  have hxy : x ≤ y := by linarith
  have hyx : y ≤ x := by linarith
  exact le_antisymm hxy hyx

/-- C2: On a table whose magnitude column holds finite numeric values, at
least one row, and not all values equal, normalize_lc returns one float per
input row, the i-th being (v - lo) / hi with lo the column minimum and hi
the column maximum minus lo, and every output value lies in [0, 1]. -/
theorem C2_normalize_lc_nondegenerate (t : Table) (c : String) (q0 : ℚ) (qs : List ℚ)
    (hcol : t.getCol c = some ((q0 :: qs).map PVal.num))
    (hnc : ¬ ∀ x ∈ q0 :: qs, ∀ y ∈ q0 :: qs, x = y) :
    ∃ lo hi : ℚ,
      (lo ∈ q0 :: qs ∧ ∀ x ∈ q0 :: qs, lo ≤ x) ∧
      (∃ hiv : ℚ, hiv ∈ q0 :: qs ∧ (∀ x ∈ q0 :: qs, x ≤ hiv) ∧ hi = hiv - lo) ∧
      normalize_lc t c = some ((q0 :: qs).map (fun q => PVal.num ((q - lo) / hi))) ∧
      ((q0 :: qs).map (fun q => PVal.num ((q - lo) / hi))).length = (q0 :: qs).length ∧
      (∀ q ∈ q0 :: qs, 0 ≤ (q - lo) / hi ∧ (q - lo) / hi ≤ 1) := by
  have hlt := foldl_min_lt_foldl_max q0 qs hnc
  have hipos : 0 < qs.foldl max q0 - qs.foldl min q0 := by linarith
  have hne : qs.foldl max q0 - qs.foldl min q0 ≠ 0 := ne_of_gt hipos
  refine ⟨qs.foldl min q0, qs.foldl max q0 - qs.foldl min q0,
    ⟨foldl_min_mem_cons q0 qs, foldl_min_le_all q0 qs⟩,
    ⟨qs.foldl max q0, foldl_max_mem_cons q0 qs, le_foldl_max_all q0 qs, rfl⟩,
    normalize_lc_pure t c q0 qs hcol hne, List.length_map _ _, ?_⟩
  intro q hq
  constructor
  · exact div_nonneg (by linarith [foldl_min_le_all q0 qs q hq]) (le_of_lt hipos)
  · rw [div_le_one hipos]
    linarith [le_foldl_max_all q0 qs q hq]

/-- C2 witness: the nondegeneracy theorem instantiated at the column
[9, 4, 2, 4] of the test suite. -/
theorem C2_normalize_lc_nondegenerate_witness :
    ∃ lo hi : ℚ,
      (lo ∈ (9 : ℚ) :: [4, 2, 4] ∧ ∀ x ∈ (9 : ℚ) :: [4, 2, 4], lo ≤ x) ∧
      (∃ hiv : ℚ, hiv ∈ (9 : ℚ) :: [4, 2, 4] ∧ (∀ x ∈ (9 : ℚ) :: [4, 2, 4], x ≤ hiv) ∧
        hi = hiv - lo) ∧
      normalize_lc (Table.mk [("b", [PVal.num 9, PVal.num 4, PVal.num 2, PVal.num 4])]) "b"
        = some (((9 : ℚ) :: [4, 2, 4]).map (fun q => PVal.num ((q - lo) / hi))) ∧
      (((9 : ℚ) :: [4, 2, 4]).map (fun q => PVal.num ((q - lo) / hi))).length
        = ((9 : ℚ) :: [4, 2, 4]).length ∧
      (∀ q ∈ (9 : ℚ) :: [4, 2, 4], 0 ≤ (q - lo) / hi ∧ (q - lo) / hi ≤ 1) :=
  C2_normalize_lc_nondegenerate
    (Table.mk [("b", [PVal.num 9, PVal.num 4, PVal.num 2, PVal.num 4])]) "b" 9 [4, 2, 4]
    (by with_unfolding_all decide) (by with_unfolding_all decide)

/-- C4: On a non-empty magnitude column of all-equal finite values
(hi = 0 and every division is 0/0), normalize_lc yields the all-zero
sequence of the same length, not NaN or infinity. -/
theorem C4_normalize_lc_constant (t : Table) (c : String) (q0 : ℚ) (qs : List ℚ)
    (hcol : t.getCol c = some ((q0 :: qs).map PVal.num))
    (hconst : ∀ x ∈ q0 :: qs, x = q0) :
    normalize_lc t c = some ((q0 :: qs).map (fun _ => PVal.num 0)) ∧
    ((q0 :: qs).map (fun _ => PVal.num 0)).length = (q0 :: qs).length := by
  have hlo : qs.foldl min q0 = q0 := by
    rcases foldl_min_eq_or_mem qs q0 with h | h
    · exact h
    · exact hconst _ (List.mem_cons_of_mem q0 h)
  have hhi : qs.foldl max q0 = q0 := by
    rcases foldl_max_eq_or_mem qs q0 with h | h
    · exact h
    · exact hconst _ (List.mem_cons_of_mem q0 h)
  have heval := normalize_lc_eval t c _ hcol
  rw [colMin_map_num, hlo] at heval
  have hshift : ((q0 :: qs).map PVal.num).map (fun v => psub v (PVal.num q0))
      = ((q0 :: qs).map (fun q => q - q0)).map PVal.num := by
    simp only [List.map_map]
    rfl
  have hcolmax : colMax (((q0 :: qs).map PVal.num).map (fun x => psub x (PVal.num q0)))
      = PVal.num 0 := by
    rw [hshift]
    simp only [List.map_cons]
    have h1 := colMax_map_num (q0 - q0) (qs.map (fun q => q - q0))
    simp only [List.map_cons] at h1
    rw [h1]
    have h2 := foldl_max_map (fun q => q - q0)
      (fun a b => (max_sub_sub_right a b q0).symm) qs q0
    rw [h2, hhi]
    simp
  rw [heval, hcolmax]
  refine ⟨?_, by simp⟩
  congr 1
  simp only [List.map_map]
  apply List.map_congr_left
  intro q hq
  simp only [Function.comp_apply]
  rw [psub_num_num, hconst q hq]
  simp only [sub_self]
  rw [pdiv_num_zero_zero]
  rfl

/-- C4 witness: a constant column of three equal values maps to three
zeros. -/
theorem C4_normalize_lc_constant_witness :
    normalize_lc (Table.mk [("b", [PVal.num 1, PVal.num 1, PVal.num 1])]) "b"
      = some (((1 : ℚ) :: [1, 1]).map (fun _ => PVal.num 0)) ∧
    (((1 : ℚ) :: [1, 1]).map (fun _ => PVal.num 0)).length = ((1 : ℚ) :: [1, 1]).length :=
  C4_normalize_lc_constant (Table.mk [("b", [PVal.num 1, PVal.num 1, PVal.num 1])]) "b" 1 [1, 1]
    (by with_unfolding_all decide) (by with_unfolding_all decide)

/-- C5: For a table whose magnitude column has at least one non-NaN entry,
all of them finite, min_mag <= mean_mag <= max_mag, and on a single-row
column all three reducers return that single value. -/
theorem C5_reducer_order (t : Table) (c : String) (col : List PVal) (q0 : ℚ) (qs : List ℚ)
    (hcol : t.getCol c = some col)
    (hfil : col.filter (fun v => !v.isNan) = (q0 :: qs).map PVal.num) :
    ∃ lo m hi : ℚ,
      min_mag t c = some (PVal.num lo) ∧ mean_mag t c = some (PVal.num m) ∧
      max_mag t c = some (PVal.num hi) ∧ lo ≤ m ∧ m ≤ hi ∧
      (∀ v : ℚ, col = [PVal.num v] → lo = v ∧ m = v ∧ hi = v) := by
  have hmin : colMin col = PVal.num (qs.foldl min q0) := colMin_of_filter col q0 qs hfil
  have hmax : colMax col = PVal.num (qs.foldl max q0) := colMax_of_filter col q0 qs hfil
  have hmean : colMean col = PVal.num ((q0 :: qs).sum / ((q0 :: qs).length : ℚ)) :=
    colMean_of_filter col q0 qs hfil
  have hlen : (0 : ℚ) < ((q0 :: qs).length : ℚ) := by
    simp only [List.length_cons]
    push_cast
    positivity
  refine ⟨qs.foldl min q0, (q0 :: qs).sum / ((q0 :: qs).length : ℚ), qs.foldl max q0,
    by simp [min_mag, hcol, hmin], by simp [mean_mag, hcol, hmean],
    by simp [max_mag, hcol, hmax], ?_, ?_, ?_⟩
  · rw [le_div_iff₀ hlen]
    have h1 := length_mul_le_sum (q0 :: qs) (qs.foldl min q0) (foldl_min_le_all q0 qs)
    linarith
  · rw [div_le_iff₀ hlen]
    have h1 := sum_le_length_mul (q0 :: qs) (qs.foldl max q0) (le_foldl_max_all q0 qs)
    linarith
  · intro v hv
    rw [hv] at hfil
    have hfil2 : [PVal.num v] = (q0 :: qs).map PVal.num := by
      rw [← hfil]
      rfl
    simp only [List.map_cons, List.cons.injEq, PVal.num.injEq] at hfil2
    obtain ⟨hq0, hqs⟩ := hfil2
    have hqsnil : qs = [] := by
      cases qs with
      | nil => rfl
      | cons a as => simp at hqs
    subst hqsnil
    subst hq0
    refine ⟨rfl, ?_, rfl⟩
    simp

/-- C5 witness: the reducer order theorem at the single-row column [7]. -/
theorem C5_reducer_order_witness :
    ∃ lo m hi : ℚ,
      min_mag (Table.mk [("a", [PVal.num 7])]) "a" = some (PVal.num lo) ∧
      mean_mag (Table.mk [("a", [PVal.num 7])]) "a" = some (PVal.num m) ∧
      max_mag (Table.mk [("a", [PVal.num 7])]) "a" = some (PVal.num hi) ∧
      lo ≤ m ∧ m ≤ hi ∧
      (∀ v : ℚ, [PVal.num 7] = [PVal.num v] → lo = v ∧ m = v ∧ hi = v) :=
  C5_reducer_order (Table.mk [("a", [PVal.num 7])]) "a" [PVal.num 7] 7 []
    (by with_unfolding_all decide) (by with_unfolding_all decide)

/-- C3 counterexample: on the column [1, NaN] all three reducers return 1,
not NaN, so they do not propagate NaN (pandas defaults to skipna=True). -/
theorem C3_reducers_nan_cex :
    mean_mag (Table.mk [("b", [PVal.num 1, PVal.nan])]) "b" = some (PVal.num 1) ∧
    max_mag (Table.mk [("b", [PVal.num 1, PVal.nan])]) "b" = some (PVal.num 1) ∧
    min_mag (Table.mk [("b", [PVal.num 1, PVal.nan])]) "b" = some (PVal.num 1) ∧
    PVal.num 1 ≠ PVal.nan := by
  with_unfolding_all decide

/-- C3 amended: the reducers SKIP NaN entries rather than propagating them:
each reducer returns on any column exactly what it returns on the column
with the NaN entries removed (and is NaN only when no entries remain). -/
theorem C3_reducers_skip_nan (t : Table) (c : String) (col : List PVal)
    (hcol : t.getCol c = some col) :
    min_mag t c = min_mag (Table.mk [(c, col.filter (fun v => !v.isNan))]) c ∧
    max_mag t c = max_mag (Table.mk [(c, col.filter (fun v => !v.isNan))]) c ∧
    mean_mag t c = mean_mag (Table.mk [(c, col.filter (fun v => !v.isNan))]) c := by
  have hg : (Table.mk [(c, col.filter (fun v => !v.isNan))]).getCol c
      = some (col.filter (fun v => !v.isNan)) := lookup_cons_self c _ []
  refine ⟨?_, ?_, ?_⟩
  · simp [min_mag, hcol, hg, colMin_filter_nan]
  · simp [max_mag, hcol, hg, colMax_filter_nan]
  · simp [mean_mag, hcol, hg, colMean_filter_nan]

/-- C3 witness: the skip-NaN equivalence at the column [1, NaN]. -/
theorem C3_reducers_skip_nan_witness :
    min_mag (Table.mk [("b", [PVal.num 1, PVal.nan])]) "b"
      = min_mag (Table.mk [("b", [PVal.num 1, PVal.nan].filter (fun v => !v.isNan))]) "b" ∧
    max_mag (Table.mk [("b", [PVal.num 1, PVal.nan])]) "b"
      = max_mag (Table.mk [("b", [PVal.num 1, PVal.nan].filter (fun v => !v.isNan))]) "b" ∧
    mean_mag (Table.mk [("b", [PVal.num 1, PVal.nan])]) "b"
      = mean_mag (Table.mk [("b", [PVal.num 1, PVal.nan].filter (fun v => !v.isNan))]) "b" :=
  C3_reducers_skip_nan (Table.mk [("b", [PVal.num 1, PVal.nan])]) "b"
    [PVal.num 1, PVal.nan] (by with_unfolding_all decide)

/-- C6: a band name requested but absent from the band mapping makes
calc_stats fail as a whole: the result is the error value, not a partial
summary. -/
theorem C6_calc_stats_missing_band (lc : List (String × Table)) (bands : List String)
    (c b : String) (hb : b ∈ bands) (hmiss : lc.lookup b = none) :
    calc_stats lc bands c = none := by
  unfold calc_stats
  rw [calcStatsLoop_missing lc c bands [] b hb hmiss]
  rfl

/-- C6 witness: requesting band x against an empty mapping aborts. -/
theorem C6_calc_stats_missing_band_witness :
    calc_stats [] ["x"] "mag" = none :=
  C6_calc_stats_missing_band [] ["x"] "mag" "x"
    (by with_unfolding_all decide) (by with_unfolding_all decide)

/-- C8: the reducers and normalize_lc depend only on the selected magnitude
column: two tables agreeing on column c get identical results, although the
implementation subtracts the minimum from the whole frame. -/
theorem C8_column_only (t1 t2 : Table) (c : String)
    (h : t1.getCol c = t2.getCol c) :
    min_mag t1 c = min_mag t2 c ∧ max_mag t1 c = max_mag t2 c ∧
    mean_mag t1 c = mean_mag t2 c ∧ normalize_lc t1 c = normalize_lc t2 c := by
  refine ⟨by simp [min_mag, h], by simp [max_mag, h], by simp [mean_mag, h], ?_⟩
  cases hg : t1.getCol c with
  | none =>
    have hg2 : t2.getCol c = none := by rw [← h]; exact hg
    simp [normalize_lc, min_mag, hg, hg2]
  | some col =>
    have hg2 : t2.getCol c = some col := by rw [← h]; exact hg
    rw [normalize_lc_eval t1 c col hg, normalize_lc_eval t2 c col hg2]

/-- C8 witness: a table with an extra unrelated column gives the same
results as the bare column. -/
theorem C8_column_only_witness :
    min_mag (Table.mk [("a", [PVal.num 5]), ("b", [PVal.num 1, PVal.num 2])]) "b"
      = min_mag (Table.mk [("b", [PVal.num 1, PVal.num 2])]) "b" ∧
    max_mag (Table.mk [("a", [PVal.num 5]), ("b", [PVal.num 1, PVal.num 2])]) "b"
      = max_mag (Table.mk [("b", [PVal.num 1, PVal.num 2])]) "b" ∧
    mean_mag (Table.mk [("a", [PVal.num 5]), ("b", [PVal.num 1, PVal.num 2])]) "b"
      = mean_mag (Table.mk [("b", [PVal.num 1, PVal.num 2])]) "b" ∧
    normalize_lc (Table.mk [("a", [PVal.num 5]), ("b", [PVal.num 1, PVal.num 2])]) "b"
      = normalize_lc (Table.mk [("b", [PVal.num 1, PVal.num 2])]) "b" :=
  C8_column_only (Table.mk [("a", [PVal.num 5]), ("b", [PVal.num 1, PVal.num 2])])
    (Table.mk [("b", [PVal.num 1, PVal.num 2])]) "b" (by with_unfolding_all decide)

/-- C10: on a zero-row table that still has the magnitude column in its
schema, normalize_lc returns the empty sequence rather than failing. -/
theorem C10_normalize_lc_empty (t : Table) (c : String)
    (hcol : t.getCol c = some []) :
    normalize_lc t c = some [] := by
  have heval := normalize_lc_eval t c [] hcol
  simpa using heval

/-- C10 witness: a table with an empty magnitude column. -/
theorem C10_normalize_lc_empty_witness :
    normalize_lc (Table.mk [("b", ([] : List PVal))]) "b" = some [] :=
  C10_normalize_lc_empty (Table.mk [("b", ([] : List PVal))]) "b"
    (by with_unfolding_all decide)

/-- C7: normalize_lc is idempotent on non-constant columns: a table whose
magnitude column already holds the normalized output of a non-constant
column is mapped to that same sequence again. -/
theorem C7_normalize_lc_idempotent (t t2 : Table) (c : String) (q0 : ℚ) (qs : List ℚ)
    (out : List PVal)
    (hcol : t.getCol c = some ((q0 :: qs).map PVal.num))
    (hnc : ¬ ∀ x ∈ q0 :: qs, ∀ y ∈ q0 :: qs, x = y)
    (hout : normalize_lc t c = some out)
    (hcol2 : t2.getCol c = some out) :
    normalize_lc t2 c = some out := by
  have hlt := foldl_min_lt_foldl_max q0 qs hnc
  have hipos : 0 < qs.foldl max q0 - qs.foldl min q0 := by linarith
  have hne : qs.foldl max q0 - qs.foldl min q0 ≠ 0 := ne_of_gt hipos
  set f := fun q : ℚ => (q - qs.foldl min q0) / (qs.foldl max q0 - qs.foldl min q0) with hfdef
  have hfmin : ∀ a b : ℚ, f (min a b) = min (f a) (f b) := by
    intro a b
    simp only [hfdef]
    rw [← min_sub_sub_right, ← min_div_div_right (le_of_lt hipos)]
  have hfmax : ∀ a b : ℚ, f (max a b) = max (f a) (f b) := by
    intro a b
    simp only [hfdef]
    rw [← max_sub_sub_right, ← max_div_div_right (le_of_lt hipos)]
  have hflo : f (qs.foldl min q0) = 0 := by
    simp only [hfdef]
    rw [sub_self, zero_div]
  have hfhiv : f (qs.foldl max q0) = 1 := by
    simp only [hfdef]
    exact div_self hne
  have hpure := normalize_lc_pure t c q0 qs hcol hne
  rw [hpure] at hout
  injection hout with hout2
  have houtm : out = ((q0 :: qs).map f).map PVal.num := by
    rw [List.map_map]
    exact hout2.symm
  have hcol2m : t2.getCol c = some ((f q0 :: qs.map f).map PVal.num) := by
    rw [hcol2, houtm]
    rfl
  have hminmap : (qs.map f).foldl min (f q0) = 0 := by
    rw [foldl_min_map f hfmin qs q0, hflo]
  have hmaxmap : (qs.map f).foldl max (f q0) = 1 := by
    rw [foldl_max_map f hfmax qs q0, hfhiv]
  have hne2 : (qs.map f).foldl max (f q0) - (qs.map f).foldl min (f q0) ≠ 0 := by
    rw [hminmap, hmaxmap]
    norm_num
  have hpure2 := normalize_lc_pure t2 c (f q0) (qs.map f) hcol2m hne2
  rw [hpure2, houtm]
  rw [hminmap, hmaxmap] at *
  congr 1
  have hcons : (f q0 :: qs.map f) = (q0 :: qs).map f := rfl
  rw [hcons]
  apply List.map_congr_left
  intro r hr
  norm_num

/-- C7 witness: normalizing the already-normalized column of [9, 4, 2, 4]
reproduces the same sequence. -/
theorem C7_normalize_lc_idempotent_witness :
    normalize_lc (Table.mk [("b",
      [PVal.num 1, PVal.num (2/7), PVal.num 0, PVal.num (2/7)])]) "b"
      = some [PVal.num 1, PVal.num (2/7), PVal.num 0, PVal.num (2/7)] :=
  C7_normalize_lc_idempotent
    (Table.mk [("b", [PVal.num 9, PVal.num 4, PVal.num 2, PVal.num 4])])
    (Table.mk [("b", [PVal.num 1, PVal.num (2/7), PVal.num 0, PVal.num (2/7)])])
    "b" 9 [4, 2, 4] [PVal.num 1, PVal.num (2/7), PVal.num 0, PVal.num (2/7)]
    (by with_unfolding_all decide) (by with_unfolding_all decide)
    (by with_unfolding_all decide) (by with_unfolding_all decide)

/-- C9 counterexample: on the column [NaN, 1, 2] the output is [0, 0, 1]:
position 1 holds the non-NaN input 1 yet its output is 0 (the minimum
normalizes to 0), so the output is NOT 0 at exactly the NaN positions. -/
theorem C9_nan_positions_cex :
    normalize_lc (Table.mk [("b", [PVal.nan, PVal.num 1, PVal.num 2])]) "b"
      = some [PVal.num 0, PVal.num 0, PVal.num 1] ∧
    [PVal.nan, PVal.num 1, PVal.num 2].getD 1 PVal.nan = PVal.num 1 ∧
    (PVal.num 1).isNan = false ∧
    [PVal.num 0, PVal.num 0, PVal.num 1].getD 1 PVal.nan = PVal.num 0 := by
  with_unfolding_all decide

/-- C9 amended: on a column mixing NaN entries with non-NaN values that are
not all equal, every NaN position yields 0, and every non-NaN value q
yields (q - lo) / hi with lo the minimum and hi the maximum minus the
minimum of the non-NaN values (so the minimal non-NaN value also yields 0). -/
theorem C9_normalize_lc_nan_to_zero (t : Table) (c : String) (col : List PVal)
    (q0 : ℚ) (qs : List ℚ)
    (hcol : t.getCol c = some col)
    (hfil : col.filter (fun v => !v.isNan) = (q0 :: qs).map PVal.num)
    (hnc : ¬ ∀ x ∈ q0 :: qs, ∀ y ∈ q0 :: qs, x = y) :
    ∃ lo hi : ℚ,
      (lo ∈ q0 :: qs ∧ ∀ x ∈ q0 :: qs, lo ≤ x) ∧
      (∃ hiv : ℚ, hiv ∈ q0 :: qs ∧ (∀ x ∈ q0 :: qs, x ≤ hiv) ∧ hi = hiv - lo) ∧
      normalize_lc t c = some (col.map (fun v =>
        match v with
        | PVal.num q => PVal.num ((q - lo) / hi)
        | _ => PVal.num 0)) := by
  have hlt := foldl_min_lt_foldl_max q0 qs hnc
  have hne : qs.foldl max q0 - qs.foldl min q0 ≠ 0 := by linarith
  exact ⟨qs.foldl min q0, qs.foldl max q0 - qs.foldl min q0,
    ⟨foldl_min_mem_cons q0 qs, foldl_min_le_all q0 qs⟩,
    ⟨qs.foldl max q0, foldl_max_mem_cons q0 qs, le_foldl_max_all q0 qs, rfl⟩,
    normalize_lc_mixed t c col q0 qs hcol hfil hne⟩

/-- C9 witness: the amended statement at the column [NaN, 1, 2]. -/
theorem C9_normalize_lc_nan_to_zero_witness :
    ∃ lo hi : ℚ,
      (lo ∈ (1 : ℚ) :: [2] ∧ ∀ x ∈ (1 : ℚ) :: [2], lo ≤ x) ∧
      (∃ hiv : ℚ, hiv ∈ (1 : ℚ) :: [2] ∧ (∀ x ∈ (1 : ℚ) :: [2], x ≤ hiv) ∧ hi = hiv - lo) ∧
      normalize_lc (Table.mk [("b", [PVal.nan, PVal.num 1, PVal.num 2])]) "b"
        = some ([PVal.nan, PVal.num 1, PVal.num 2].map (fun v =>
          match v with
          | PVal.num q => PVal.num ((q - lo) / hi)
          | _ => PVal.num 0)) :=
  C9_normalize_lc_nan_to_zero (Table.mk [("b", [PVal.nan, PVal.num 1, PVal.num 2])]) "b"
    [PVal.nan, PVal.num 1, PVal.num 2] 1 [2]
    (by with_unfolding_all decide) (by with_unfolding_all decide)
    (by with_unfolding_all decide)

/-- C1 counterexample: (1) on an empty band sequence the summary has no
rows at all (an empty dict gives from_records nothing to build the index
from); (2) on a duplicated band name the dict collapses the duplicates, so
the columns are not the requested sequence; (3) from_records sorts the dict
keys, so requesting the bands u, g yields the columns g, u — not the order
given. -/
theorem C1_calc_stats_cex :
    (calc_stats [] ([] : List String) "mag" = some (StatsFrame.mk [] []) ∧
      ([] : List String) ≠ ["max", "mean", "min"]) ∧
    (calc_stats [("x", Table.mk [("mag", [PVal.num 1])])] ["x", "x"] "mag"
        = some (StatsFrame.mk ["max", "mean", "min"]
            [("x", [PVal.num 1, PVal.num 1, PVal.num 1])]) ∧
      (StatsFrame.mk ["max", "mean", "min"]
          [("x", [PVal.num 1, PVal.num 1, PVal.num 1])]).columns.map Prod.fst
        ≠ ["x", "x"]) ∧
    (calc_stats [("u", Table.mk [("m", [PVal.num 1, PVal.num 3])]),
        ("g", Table.mk [("m", [PVal.num 2])])] ["u", "g"] "m"
        = some (StatsFrame.mk ["max", "mean", "min"]
            [("g", [PVal.num 2, PVal.num 2, PVal.num 2]),
              ("u", [PVal.num 3, PVal.num 2, PVal.num 1])]) ∧
      (StatsFrame.mk ["max", "mean", "min"]
          [("g", [PVal.num 2, PVal.num 2, PVal.num 2]),
            ("u", [PVal.num 3, PVal.num 2, PVal.num 1])]).columns.map Prod.fst
        ≠ ["u", "g"]) := by
  with_unfolding_all decide

/-- C1 amended: for every non-empty, duplicate-free band sequence whose
bands are all present with the magnitude column, calc_stats returns the
summary frame with rows max, mean, min in that order, and one column per
requested band in SORTED (lexicographic) band order — from_records sorts
the dict keys — each column holding the three reducer values of its band. -/
theorem C1_calc_stats_spec (lc : List (String × Table)) (bands : List String) (c : String)
    (hne : bands ≠ []) (hnd : bands.Nodup)
    (hpres : ∀ b ∈ bands, ((lc.lookup b).bind (fun t => t.getCol c)).isSome = true) :
    ∃ f : StatsFrame, calc_stats lc bands c = some f ∧
      f.index = ["max", "mean", "min"] ∧
      (f.columns.map Prod.fst).Perm bands ∧
      List.Sorted (fun a b : String => a ≤ b) (f.columns.map Prod.fst) ∧
      (∀ b t, b ∈ bands → lc.lookup b = some t →
        ∃ mx mn mi, max_mag t c = some mx ∧ mean_mag t c = some mn ∧
          min_mag t c = some mi ∧ f.columns.lookup b = some [mx, mn, mi]) := by
  obtain ⟨recs, heq, hmap, hlook⟩ :=
    calcStatsLoop_spec lc c bands [] hnd (fun b _ => rfl) hpres
  have hperm : (List.insertionSort (fun p q : String × List PVal => p.1 ≤ q.1) recs).Perm recs :=
    List.perm_insertionSort _ recs
  have hpermkeys :
      ((List.insertionSort (fun p q : String × List PVal => p.1 ≤ q.1) recs).map Prod.fst).Perm
        bands := by
    have hp := hperm.map Prod.fst
    rw [hmap] at hp
    exact hp
  cases recs with
  | nil =>
    exfalso
    apply hne
    simpa using hmap.symm
  | cons r rs =>
    refine ⟨fromRecords (r :: rs), ?_, rfl, hpermkeys, ?_, ?_⟩
    · unfold calc_stats
      rw [heq]
      simp
    · exact List.pairwise_map.mpr
        (List.sorted_insertionSort (fun p q : String × List PVal => p.1 ≤ q.1) (r :: rs))
    · intro b t hb hl
      obtain ⟨mx, mn, mi, h1, h2, h3, h4⟩ := hlook b t hb hl
      refine ⟨mx, mn, mi, h1, h2, h3, ?_⟩
      apply lookup_eq_some_of_mem_nodup
      · exact hpermkeys.nodup_iff.mpr hnd
      · exact hperm.mem_iff.mpr (mem_of_lookup_eq_some h4)

/-- C1 witness: bands requested as u, g come back as the sorted columns
g, u with the right statistics. -/
theorem C1_calc_stats_spec_witness :
    ∃ f : StatsFrame,
      calc_stats [("u", Table.mk [("m", [PVal.num 1, PVal.num 3])]),
        ("g", Table.mk [("m", [PVal.num 2])])] ["u", "g"] "m" = some f ∧
      f.index = ["max", "mean", "min"] ∧
      (f.columns.map Prod.fst).Perm ["u", "g"] ∧
      List.Sorted (fun a b : String => a ≤ b) (f.columns.map Prod.fst) ∧
      (∀ b t, b ∈ ["u", "g"] →
        [("u", Table.mk [("m", [PVal.num 1, PVal.num 3])]),
          ("g", Table.mk [("m", [PVal.num 2])])].lookup b = some t →
        ∃ mx mn mi, max_mag t "m" = some mx ∧ mean_mag t "m" = some mn ∧
          min_mag t "m" = some mi ∧ f.columns.lookup b = some [mx, mn, mi]) :=
  C1_calc_stats_spec
    [("u", Table.mk [("m", [PVal.num 1, PVal.num 3])]),
      ("g", Table.mk [("m", [PVal.num 2])])] ["u", "g"] "m"
    (by with_unfolding_all decide) (by with_unfolding_all decide)
    (by with_unfolding_all decide)

